import Mathlib

/-!
Verification of the runtime content pipeline of a static-site engine.

The development shallowly embeds the relevant Rust functions:
byte-range parsing and HTTP response assembly (main.rs), conditional GET
(check_if_modified_and_etag), the page-graph builder (pages.rs: PageSortKey,
sibling orders, parent/child aggregation), breadcrumbs (context.rs), the URL
rewriter (url_rewriter.rs), the hot-reload debounce loop and the snapshot
swap (main.rs).  Byte strings are modelled as Lean strings (valid UTF-8, so
byte-wise operations coincide with the character-wise ones used here),
machine integers as Nat with explicit bounds where overflow matters, and
fallible code as Option.
-/

/-! ## String helpers

Lean core string functions such as String.splitOn do not reduce in the
kernel, so the Rust string operations are modelled on the underlying
character lists. -/

/-- Model of Rust str::starts_with for byte-prefix tests (on valid UTF-8 a
byte prefix is exactly a character prefix). -/
def strStartsWith (s p : String) : Bool := p.data.isPrefixOf s.data

/-- Model of Rust str::strip_prefix. -/
def stripPrefixStr (s p : String) : Option String :=
  if p.data.isPrefixOf s.data then some ⟨s.data.drop p.data.length⟩ else none

/-- Split a character list at every occurrence of the separator, like Rust
str::split(c): the empty list splits to one empty part, separators at the
ends produce empty parts. -/
def splitCharList (c : Char) : List Char → List (List Char)
  | [] => [[]]
  | x :: xs =>
    if x = c then [] :: splitCharList c xs
    else
      match splitCharList c xs with
      | [] => [[x]]
      | p :: ps => (x :: p) :: ps

/-- Model of Rust str::split on a single character. -/
def splitOnChar (c : Char) (s : String) : List String :=
  (splitCharList c s.data).map (fun l => ⟨l⟩)

/-- Model of Rust str::trim_end_matches applied to one character: drops every
trailing occurrence. -/
def trimEndMatchesChar (c : Char) (s : String) : String :=
  ⟨(s.data.reverse.dropWhile (fun x => x = c)).reverse⟩

/-- Model of Rust u64::from_str as used by str::parse::<u64>(): an optional
leading plus sign, one or more ASCII digits, and the value must fit in 64
bits. -/
def parseU64 (s : String) : Option Nat :=
  let t := if strStartsWith s "+" then ⟨s.data.drop 1⟩ else s
  if t.data = [] then none
  else if t.data.all Char.isDigit then
    let n := t.data.foldl (fun acc c => acc * 10 + (c.toNat - 48)) 0
    if n < 2 ^ 64 then some n else none
  else none

/-! ## HTTP response layer (main.rs)

Bodies are byte sequences modelled as List Nat.  A resource is served from
memory (BodySource::Preloaded), so metadata.len is always the length of its
content, and it is inlined as such. -/

/-- Half-open byte range start..stop, as the Rust Range<u64> value
start..end+1 built by parse_range_header. -/
structure ByteRange where
  start : Nat
  stop : Nat
deriving DecidableEq, Repr

/-- Model of parse_range_header (main.rs): strip the bytes= prefix, split on
the dash character, parse the first part as u64, parse the second part as
u64 when present and default it to total_length - 1 when the split produced
a single part, then validate start <= end < total_length.  This is the
closure body after the bytes= prefix has been stripped; the header argument
of parse_range_header below is none when the request carries no Range
header or its value is not a valid header string. -/
def parseRangeValue (v : String) (total_length : Nat) : Option ByteRange :=
  let parts := splitOnChar '-' v
  parts.head?.bind fun p0 =>
    (parseU64 p0).bind fun start =>
      (parts.tail.head?.elim (some (total_length - 1)) (fun p1 => parseU64 p1)).bind fun e =>
        if start ≤ e ∧ e < total_length then some ⟨start, e + 1⟩ else none

/-- Model of parse_range_header, continued: the and_then chain. -/
def parse_range_header (header : Option String) (total_length : Nat) : Option ByteRange :=
  header.bind fun hv => (stripPrefixStr hv "bytes=").bind fun v => parseRangeValue v total_length

/-- Request methods routed to the generic handler. -/
inductive HttpMethod where
  | get
  | head
  | options
deriving DecidableEq

/-- The observable parts of a hyper response relevant to the claims: status
code, Content-Range header, Content-Length header and body bytes. -/
structure HttpResponseModel where
  status : Nat
  contentRange : Option String
  contentLength : Option Nat
  body : List Nat
deriving DecidableEq, Repr

/-- Model of Response::into_response (main.rs) for a Preloaded body source
with the given status (200 at every call site that attaches a range):
OPTIONS short-circuits to 204; a stored range with range.end >= len yields
416 with Content-Range bytes */len and empty body; otherwise the range
yields 206 with Content-Range bytes start-(end-1)/len and the byte slice;
without a range the full content is served.  HEAD suppresses the body. -/
def into_response (method : HttpMethod) (status : Nat) (content : List Nat)
    (range : Option ByteRange) : HttpResponseModel :=
  if method = .options then
    { status := 204, contentRange := none, contentLength := none, body := [] }
  else
    match range with
    | some r =>
      if content.length ≤ r.stop then
        { status := 416, contentRange := some ("bytes */" ++ toString content.length),
          contentLength := none, body := [] }
      else
        { status := 206,
          contentRange := some ("bytes " ++ toString r.start ++ "-" ++ toString (r.stop - 1)
            ++ "/" ++ toString content.length),
          contentLength := some (r.stop - r.start),
          body := if method = .get then (content.drop r.start).take (r.stop - r.start) else [] }
    | none =>
      { status := status, contentRange := none, contentLength := some content.length,
        body := if method = .get then content else [] }

/-- Seconds of a nanosecond timestamp, as Duration::as_secs. -/
def truncToSecs (nanos : Nat) : Nat := nanos / 1000000000

/-- Model of the core of check_if_modified_and_etag (main.rs).  The
resource timestamp is nanoseconds since the epoch; the If-Modified-Since
argument is the parsed header as whole seconds since the epoch
(httpdate::parse_http_date yields second precision), and none when the
header is missing or its decoded value does not parse as an HTTP date,
which falls through to the normal response.  The decoding of the raw
header value that precedes the parse — including the to_str().unwrap()
panic on non-visible-ASCII values — is modelled by serve_resource_raw
below. -/
def check_if_modified_and_etag (last_modified_nanos : Nat) (if_modified_since : Option Nat) :
    Option HttpResponseModel :=
  match if_modified_since with
  | some t =>
    if truncToSecs last_modified_nanos ≤ t then
      some { status := 304, contentRange := none, contentLength := none, body := [] }
    else none
  | none => none

/-- Model of the common serve path of serve_page and serve_static_file for a
resource found in the snapshot: the conditional-GET check runs first, then
the response is assembled with the parsed range, if any. -/
def serve_resource (method : HttpMethod) (if_modified_since : Option Nat)
    (range_header : Option String) (content : List Nat) (last_modified_nanos : Nat) :
    HttpResponseModel :=
  match check_if_modified_and_etag last_modified_nanos if_modified_since with
  | some resp => resp
  | none => into_response method 200 content (parse_range_header range_header content.length)

/-- Outcome of one request-handler invocation: a response, or a panic
aborting the connection task. -/
inductive HandlerOutcome where
  | ok (resp : HttpResponseModel)
  | panicked
deriving DecidableEq, Repr

/-- Byte acceptable to http HeaderValue::to_str: printable ASCII or
horizontal tab. -/
def isVisibleAscii (b : Nat) : Bool := (32 ≤ b && b < 127) || b == 9

/-- Model of HeaderValue::to_str on the raw header bytes (hyper accepts
obs-text bytes above 0x7F in header values): fails on any byte that is not
visible ASCII, otherwise decodes the ASCII string. -/
def headerToStr (bytes : List Nat) : Option String :=
  if bytes.all isVisibleAscii then some ⟨bytes.map Char.ofNat⟩ else none

/-- Model of the serve path including the header decoding that
check_if_modified_and_etag performs first: the If-Modified-Since header
arrives as raw bytes, to_str().unwrap() panics when they are not visible
ASCII, and the decoded string goes to httpdate::parse_http_date — the
external crate passed in as parseHttpDate, yielding whole seconds since
the epoch on success and none on a parse failure, which falls through to
the normal response. -/
def serve_resource_raw (parseHttpDate : String → Option Nat) (method : HttpMethod)
    (if_modified_since : Option (List Nat)) (range_header : Option String)
    (content : List Nat) (last_modified_nanos : Nat) : HandlerOutcome :=
  match if_modified_since with
  | some bytes =>
    match headerToStr bytes with
    | none => .panicked
    | some s =>
      .ok (serve_resource method (parseHttpDate s) range_header content last_modified_nanos)
  | none => .ok (serve_resource method none range_header content last_modified_nanos)

/-- Claim-side form predicate for C9: the header is bytes=start-end or
bytes=start with both fields parsing as u64. -/
def isClaimedRangeForm (hv : String) : Bool :=
  ((stripPrefixStr hv "bytes=").map (fun v =>
    match splitOnChar '-' v with
    | [p0] => (parseU64 p0).isSome
    | [p0, p1] => (parseU64 p0).isSome && (parseU64 p1).isSome
    | _ => false)).getD false


/-! ## Page model (pages.rs) -/

/-- Front-matter value tree, as gray_matter Pod.  The f64 payload of Float
is dropped: no modelled operation inspects it. -/
inductive Pod where
  | null
  | string (s : String)
  | integer (i : Int)
  | float
  | boolean (b : Bool)
  | array (items : List Pod)
  | hash (entries : List (String × Pod))

/-- Lookup in a string-keyed map modelled as an association list (the
HashMap and BTreeMap lookups of the source, keys assumed distinct). -/
def assocGet {β : Type} (entries : List (String × β)) (k : String) : Option β :=
  (entries.find? (fun e => e.1 == k)).map (fun e => e.2)

/-- Wrap of an i64 value into i32, the Rust cast i as i32 applied in
PageSortKey::from_metadata. -/
def wrapToI32 (i : Int) : Int := (i + 2 ^ 31) % 2 ^ 32 - 2 ^ 31

/-- Model of PageMetadata (pages.rs); timestamps are nanoseconds since the
epoch. -/
structure PageMetadata where
  front_matter : Option Pod
  title : Option String
  reading_time : Nat
  content : String
  last_modified : Nat
  file_extension : String

/-- Model of PageSortKey (pages.rs). -/
structure PageSortKey where
  sort_key : Int
  date : Option String
  slug : String

/-- Model of PageSortKey::from_metadata: sort_key from the integer
front-matter field sort_key (default 0, cast to i32), date from the string
field date. -/
def PageSortKey.from_metadata (slug : String) (m : PageMetadata) : PageSortKey :=
  match m.front_matter with
  | some (Pod.hash entries) =>
    { sort_key := ((assocGet entries "sort_key").bind (fun p =>
        match p with
        | Pod.integer i => some (wrapToI32 i)
        | _ => none)).getD 0
      date := (assocGet entries "date").bind (fun p =>
        match p with
        | Pod.string s => some s
        | _ => none)
      slug := slug }
  | _ => { sort_key := 0, date := none, slug := slug }

/-- Three-way comparison from a linear order, as Rust Ord::cmp on the
primitive component types used here. -/
def cmp3 {α : Type} [LinearOrder α] (a b : α) : Ordering :=
  if a < b then .lt else if b < a then .gt else .eq

/-- Lexicographic comparison of character lists: Rust str Ord compares
UTF-8 bytes, which on valid UTF-8 equals code-point order. -/
def listCmp : List Char → List Char → Ordering
  | [], [] => .eq
  | [], _ :: _ => .lt
  | _ :: _, [] => .gt
  | a :: as, b :: bs =>
    match cmp3 a b with
    | .eq => listCmp as bs
    | o => o

/-- Rust String Ord. -/
def strCmp (a b : String) : Ordering := listCmp a.data b.data

/-- Comparison of the optional date inside PageSortKey::cmp: dates compare
reversed (newest first) and a present date sorts before an absent one. -/
def dateCmp (a b : Option String) : Ordering :=
  match a, b with
  | some ad, some bd => strCmp bd ad
  | some _, none => .lt
  | none, some _ => .gt
  | none, none => .eq

/-- Model of PageSortKey::cmp (pages.rs): sort_key ascending, then date
descending with dated before undated, then slug ascending. -/
def PageSortKey.cmp (a b : PageSortKey) : Ordering :=
  match cmp3 a.sort_key b.sort_key with
  | .eq =>
    match a.date, b.date with
    | some ad, some bd =>
      match strCmp bd ad with
      | .eq => strCmp a.slug b.slug
      | o => o
    | some _, none => .lt
    | none, some _ => .gt
    | none, none => strCmp a.slug b.slug
  | o => o

/-- The sort key the sibling sort derives for a page record. -/
def pageKey (p : String × PageMetadata) : PageSortKey := PageSortKey.from_metadata p.1 p.2

/-- Order imposed on siblings by the sort in preload_pages_metadata: the
comparator is PageSortKey::cmp reversed (both lookups always succeed since
the group members are keys of pages_metadata), leaving the list sorted
descending by cmp, so an element x placed before y satisfies cmp x y != Lt. -/
def siblingRel (x y : String × PageMetadata) : Prop :=
  PageSortKey.cmp (pageKey x) (pageKey y) ≠ Ordering.lt

instance : DecidableRel siblingRel := fun x y =>
  inferInstanceAs (Decidable (PageSortKey.cmp (pageKey x) (pageKey y) ≠ Ordering.lt))

/-- Model of the per-group sibling sort: Rust sort_by is stable, and for
the total comparator here every stable sort yields the same list, so stable
insertion sort is used. -/
def sortSiblingGroup (g : List (String × PageMetadata)) : List (String × PageMetadata) :=
  List.insertionSort siblingRel g

/-- Index of the last occurrence of a character, as Rust str::rfind on a
char pattern (in characters; byte and character indices agree on the ASCII
slugs involved, and the index always falls on a character boundary). -/
def lastIndexOf (c : Char) : List Char → Option Nat
  | [] => none
  | x :: xs =>
    match lastIndexOf c xs with
    | some i => some (i + 1)
    | none => if x = c then some 0 else none

/-- Model of the grouping key in preload_pages_metadata: trim trailing
slashes, then cut the slug at the last remaining slash (slug minus its last
segment); top-level pages map to the empty prefix. -/
def parentPrefixOfSlug (slug : String) : String :=
  let deslashed := trimEndMatchesChar '/' slug
  match lastIndexOf '/' deslashed.data with
  | some i => ⟨slug.data.take i⟩
  | none => ""

/-- Append a page to its group, creating the group on first use — the
HashMap entry().or_default().push() step, with groups kept in
first-insertion order. -/
def insertIntoGroups (groups : List (String × List (String × PageMetadata)))
    (key : String) (page : String × PageMetadata) :
    List (String × List (String × PageMetadata)) :=
  match groups with
  | [] => [(key, [page])]
  | (k, g) :: rest =>
    if k = key then (k, g ++ [page]) :: rest else (k, g) :: insertIntoGroups rest key page

/-- Model of the prefix_groups accumulation in preload_pages_metadata. -/
def prefixGroups (pages : List (String × PageMetadata)) :
    List (String × List (String × PageMetadata)) :=
  pages.foldl (fun groups p => insertIntoGroups groups (parentPrefixOfSlug p.1) p) []

/-- Model of sibling_orders with the page records still attached. -/
def siblingOrdersPaired (pages : List (String × PageMetadata)) :
    List (String × List (String × PageMetadata)) :=
  (prefixGroups pages).map (fun g => (g.1, sortSiblingGroup g.2))

/-- Model of the sibling_orders field of PreloadedMetadata: each prefix
mapped to the ordered slugs of its group. -/
def sibling_orders (pages : List (String × PageMetadata)) : List (String × List String) :=
  (siblingOrdersPaired pages).map (fun g => (g.1, g.2.map (fun p => p.1)))

/-! ## Parent/child aggregation (pages.rs) -/

/-- Number of slash characters in a slug, as slug.matches of the slash
pattern counted. -/
def slashCount (s : String) : Nat := s.data.countP (fun c => c == '/')

/-- Depth order used to process pages deepest first: sort_by_key with
Reverse(slash count), stable. -/
def depthRel (x y : String × PageMetadata) : Prop := slashCount y.1 ≤ slashCount x.1

instance : DecidableRel depthRel := fun x y =>
  inferInstanceAs (Decidable (slashCount y.1 ≤ slashCount x.1))

/-- Ascending order by PageSortKey used for the children lists
(children.sort_by_key): an element x placed before y satisfies
cmp x y != Gt.  PageSortKey::from_summary reads the same sort_key and date
fields that built the summary from the front matter, so the key equals
from_metadata of the record. -/
def childAscRel (x y : String × PageMetadata) : Prop :=
  PageSortKey.cmp (pageKey x) (pageKey y) ≠ Ordering.gt

instance : DecidableRel childAscRel := fun x y =>
  inferInstanceAs (Decidable (PageSortKey.cmp (pageKey x) (pageKey y) ≠ Ordering.gt))

/-- The direct-child test in preload_pages_metadata: the candidate slug
starts with the page slug, differs from it, and has exactly one more
slash. -/
def isDirectChild (child parent : String) : Bool :=
  strStartsWith child parent && child != parent
    && (slashCount child == slashCount parent + 1)

/-- Model of the bottom-up parent/child aggregation in
preload_pages_metadata: pages sorted deepest first; each page collects as
children the already-processed pages passing the direct-child test, sorted
ascending by PageSortKey; the result maps each page to its children slugs.
HashMap value iteration order is modelled as insertion order, which the
subsequent sort normalises up to stability. -/
def buildSummaries (pages : List (String × PageMetadata)) :
    List ((String × PageMetadata) × List String) :=
  (List.insertionSort depthRel pages).foldl
    (fun acc p =>
      let cands := (acc.map (fun e => e.1)).filter (fun q => isDirectChild q.1 p.1)
      acc ++ [(p, (List.insertionSort childAscRel cands).map (fun q => q.1))])
    []

/-- Edge relation of the produced forest: c is listed among the children of
the page with slug p. -/
def childEdge (result : List ((String × PageMetadata) × List String))
    (p c : String) : Prop :=
  ∃ e ∈ result, e.1.1 = p ∧ c ∈ e.2

/-- Adjacent double slash somewhere in the list. -/
def hasAdjacentSlash : List Char → Bool
  | [] => false
  | [_] => false
  | a :: b :: rest => ((a == '/') && (b == '/')) || hasAdjacentSlash (b :: rest)

/-- Well-formed slug per the data model: the root slug, or a nonempty
trailing-slash-normalized hierarchical path whose segments are nonempty —
what slugify produces for ordinary page files. -/
def wellFormedSlug (s : String) : Bool :=
  s == "/" || (!s.data.isEmpty && s.data.getLast? == some '/'
    && !hasAdjacentSlash s.data && s.data.head? != some '/')

/-! ## Breadcrumbs (context.rs) -/

/-- Model of BreadcrumbItem (context.rs). -/
structure BreadcrumbItem where
  title : String
  url : String
  is_current : Bool
deriving DecidableEq, Repr

/-- Model of generate_breadcrumbs_from_metadata (context.rs): a root item
titled from the page at key "/" (fallback tilde), then one item per proper
ancestor prefix of the slug split on slashes, titled from the page at the
bare prefix when present and falling back to the prefix path; the final
segment is skipped. -/
def generate_breadcrumbs_from_metadata (page : String)
    (pages_metadata : List (String × PageMetadata)) (base_url : String) :
    List BreadcrumbItem :=
  if (trimEndMatchesChar '/' page).data = [] then []
  else
    let root_title := ((assocGet pages_metadata "/").bind (fun m => m.title)).getD "~"
    let root : BreadcrumbItem :=
      { title := root_title, url := trimEndMatchesChar '/' base_url ++ "/",
        is_current := page == "" }
    let parts := (splitOnChar '/' page).filter (fun p => !(p == ""))
    let items := (List.range parts.length).filterMap (fun i =>
      let ancestor_path := "/".intercalate (parts.take (i + 1))
      let title := ((assocGet pages_metadata ancestor_path).bind (fun m => m.title)).getD
        ancestor_path
      if i = parts.length - 1 then none
      else
        some { title := title,
               url := trimEndMatchesChar '/' base_url ++ "/" ++ ancestor_path ++ "/",
               is_current := false })
    root :: items

/-- Fixture: a dated page of default priority. -/
def fixtureDatedPage : PageMetadata :=
  { front_matter := some (Pod.hash [("date", Pod.string "2024-01-01")]),
    title := some "Dated", reading_time := 1, content := "", last_modified := 0,
    file_extension := "md" }

/-- Fixture: an undated page of default priority. -/
def fixtureUndatedPage : PageMetadata :=
  { front_matter := none, title := some "Undated", reading_time := 1, content := "",
    last_modified := 0, file_extension := "md" }

/-- Fixture: one sibling group with a dated and an undated page. -/
def fixtureSiblingPages : List (String × PageMetadata) :=
  [("blog/a/", fixtureDatedPage), ("blog/b/", fixtureUndatedPage)]

/-- Fixture: a four-page site with a root, a section and two nested pages. -/
def fixtureForestPages : List (String × PageMetadata) :=
  [("/", fixtureUndatedPage), ("blog/", fixtureUndatedPage),
   ("blog/a/", fixtureDatedPage), ("blog/a/x/", fixtureUndatedPage)]

/-- Fixture: slug-keyed metadata as the loader produces it (slugify always
appends a trailing slash), every page titled. -/
def fixtureBreadcrumbMetadata : List (String × PageMetadata) :=
  [("/", { front_matter := none, title := some "Home", reading_time := 1, content := "",
           last_modified := 0, file_extension := "md" }),
   ("blog/", { front_matter := none, title := some "Blog", reading_time := 1, content := "",
               last_modified := 0, file_extension := "md" }),
   ("blog/post/", { front_matter := none, title := some "Post", reading_time := 1,
                    content := "", last_modified := 0, file_extension := "md" })]

/-! ## URL rewriter (url_rewriter.rs)

The url crate is an external collaborator.  It is modelled by a URL value
with scheme, host and absolute path segments, and a join operation doing
the RFC 3986 merge and dot-segment removal that Url::join performs on such
URLs.  Url::parse success on a trimmed candidate is modelled as presence of
a scheme: an ASCII letter followed by letters, digits, plus, minus or dot,
terminated by a colon. -/

/-- Minimal model of url::Url for an HTTP-style base. -/
structure UrlModel where
  scheme : String
  host : String
  path : List String
deriving DecidableEq, Repr

/-- A character allowed inside a URL scheme after the first. -/
def isSchemeChar (c : Char) : Bool := c.isAlphanum || c == '+' || c == '-' || c == '.'

/-- Scheme detection, the model of Url::parse(s).is_ok(). -/
def hasScheme (s : String) : Bool :=
  match s.data with
  | [] => false
  | c :: rest => c.isAlpha && ((rest.dropWhile isSchemeChar).head? == some ':')

/-- RFC 3986 dot-segment removal over path segments. -/
def normalizeSegments (segs : List String) : List String :=
  segs.foldl (fun acc seg =>
    if seg == "." then acc
    else if seg == ".." then acc.dropLast
    else acc ++ [seg]) []

/-- Model of Url::join for a path-only reference: an absolute reference
replaces the path, a relative one merges onto the base path minus its last
segment, with dot segments removed. -/
def urlJoin (base : UrlModel) (r : String) : UrlModel :=
  if strStartsWith r "/" then
    { base with path := normalizeSegments (splitOnChar '/' ⟨r.data.drop 1⟩) }
  else
    { base with path := normalizeSegments (base.path.dropLast ++ splitOnChar '/' r) }

/-- Serialisation of the URL model. -/
def urlToString (u : UrlModel) : String :=
  u.scheme ++ "://" ++ u.host ++ "/" ++ "/".intercalate u.path

/-- Model of Rust str::trim (whitespace as recognised by Char.isWhitespace). -/
def strTrim (s : String) : String :=
  ⟨((s.data.dropWhile Char.isWhitespace).reverse.dropWhile Char.isWhitespace).reverse⟩

/-- Model of UrlRewritingTokenSink::should_rewrite_attr (url_rewriter.rs). -/
def should_rewrite_attr (tag_name attr_name : String) : Bool :=
  if attr_name == "href" || attr_name == "src" then true
  else if attr_name == "action" then tag_name == "form"
  else false

/-- Model of rewrite_single_url (url_rewriter.rs).  Resolution failures of
the url crate are not modelled (urlJoin is total); the caller falls back to
the original value on failure, which no claim exercises. -/
def rewrite_single_url (url_str : String) (site_base current_url : UrlModel) : String :=
  let trimmed := strTrim url_str
  if trimmed == "" || strStartsWith trimmed "#" || strStartsWith trimmed "mailto:"
      || strStartsWith trimmed "javascript:" || strStartsWith trimmed "data:"
      || strStartsWith trimmed "tel:" then
    trimmed
  else if hasScheme trimmed then
    trimmed
  else if strStartsWith trimmed "/" then
    urlToString (urlJoin site_base trimmed)
  else
    urlToString (urlJoin current_url trimmed)

/-- Spec-side classification of an attribute value, following the ordered
list in the specification. -/
inductive UrlClass where
  | special
  | absolute
  | siteRelative
  | docRelative
deriving DecidableEq

/-- Spec-side classifier: empty or special-prefixed values, then absolute
URLs, then site-relative, then document-relative. -/
def specClassifyUrl (trimmed : String) : UrlClass :=
  if trimmed == "" || strStartsWith trimmed "#" || strStartsWith trimmed "mailto:"
      || strStartsWith trimmed "javascript:" || strStartsWith trimmed "data:"
      || strStartsWith trimmed "tel:" then
    .special
  else if hasScheme trimmed then .absolute
  else if strStartsWith trimmed "/" then .siteRelative
  else .docRelative

/-! ## URL rewriting token sink (url_rewriter.rs)

The html5ever tokenizer is an external collaborator; the sink is modelled
at its interface, a stream of tokens. -/

/-- html5ever token stream elements as consumed by process_token. -/
inductive HtmlToken where
  | tagStart (name : String) (attrs : List (String × String)) (selfClosing : Bool)
  | tagEnd (name : String)
  | comment (text : String)
  | characters (text : String)
  | doctype (name publicId systemId : Option String)
  | nullChar
  | eof
  | parseError (msg : String)

/-- Recogniser for parse-error tokens. -/
def isParseErrorToken : HtmlToken → Bool
  | .parseError _ => true
  | _ => false

/-- Model of html_escape (url_rewriter.rs): the chained replace calls on
distinct characters equal one character-wise pass. -/
def html_escape (s : String) : String :=
  s.data.foldl (fun acc c =>
    match c with
    | '&' => acc ++ "&amp;"
    | '<' => acc ++ "&lt;"
    | '>' => acc ++ "&gt;"
    | '"' => acc ++ "&quot;"
    | '\'' => acc ++ "&#39;"
    | _ => acc ++ ⟨[c]⟩) ""

/-- Sink state: accumulated output and the inside-raw-text-element flag. -/
structure SinkState where
  output : String
  in_raw_tag : Bool

/-- Model of write_start_tag: each attribute is emitted with its value
rewritten when should_rewrite_attr allows, then attribute-escaped. -/
def write_start_tag (site_base current_url : UrlModel) (name : String)
    (attrs : List (String × String)) (selfClosing : Bool) : String :=
  "<" ++ name
    ++ attrs.foldl (fun acc attr =>
        acc ++ " " ++ attr.1 ++ "=\""
          ++ html_escape (if should_rewrite_attr name attr.1 then
              rewrite_single_url attr.2 site_base current_url
            else attr.2)
          ++ "\"") ""
    ++ (if selfClosing then " />" else ">")

/-- Serialisation of a doctype token. -/
def writeDoctype (name publicId systemId : Option String) : String :=
  "<!DOCTYPE " ++ name.getD ""
    ++ (match publicId with
        | some p =>
          " PUBLIC \"" ++ p ++ "\""
            ++ (match systemId with
                | some s2 => " \"" ++ s2 ++ "\""
                | none => "")
        | none =>
          match systemId with
          | some s2 => " SYSTEM \"" ++ s2 ++ "\""
          | none => "")
    ++ ">"

/-- Model of UrlRewritingTokenSink::process_token: none models the panic the
ParseError arm raises; every other arm appends to the output and returns. -/
def process_token (site_base current_url : UrlModel) (st : SinkState) :
    HtmlToken → Option SinkState
  | .tagStart name attrs selfClosing =>
    some { output := st.output ++ write_start_tag site_base current_url name attrs selfClosing,
           in_raw_tag := if name == "script" || name == "style" then true else st.in_raw_tag }
  | .tagEnd name =>
    some { output := st.output ++ "</" ++ name ++ ">",
           in_raw_tag := if name == "script" || name == "style" then false else st.in_raw_tag }
  | .comment text => some { st with output := st.output ++ "<!--" ++ text ++ "-->" }
  | .characters text =>
    some { st with output := st.output
      ++ (if st.in_raw_tag then text else html_escape text) }
  | .doctype name publicId systemId =>
    some { st with output := st.output ++ writeDoctype name publicId systemId }
  | .nullChar => some st
  | .eof => some st
  | .parseError _ => none

/-- Drive the sink over a token stream, stopping at a panic. -/
def runSink (site_base current_url : UrlModel) : SinkState → List HtmlToken → Option SinkState
  | st, [] => some st
  | st, t :: ts =>
    match process_token site_base current_url st t with
    | none => none
    | some st2 => runSink site_base current_url st2 ts

/-- Model of rewrite_urls (url_rewriter.rs) at the tokenizer interface:
the current URL is the base joined with the page path, the sink starts
empty, and the result is the accumulated output — none when a parse-error
token makes process_token panic. -/
def rewrite_urls_tokens (base_url : UrlModel) (current_path : String)
    (tokens : List HtmlToken) : Option String :=
  (runSink base_url (urlJoin base_url current_path)
    { output := "", in_raw_tag := false } tokens).map (fun st => st.output)

/-! ## Hot-reload debounce loop (main.rs) -/

/-- Filesystem event kinds as classified by notify, collapsed to what the
watcher callback and the loop inspect. -/
inductive FsEventKind where
  | access
  | modify
  | create
  | remove
  | rescan
  | other
deriving DecidableEq

/-- The loop keeps an event exactly when it needs a rescan or is a modify,
create or remove event; access events were already dropped by the watcher
callback before reaching the channel. -/
def kindRelevant : FsEventKind → Bool
  | .modify => true
  | .create => true
  | .remove => true
  | .rescan => true
  | _ => false

/-- Infix test on character lists. -/
def listIsInfixOf (needle : List Char) : List Char → Bool
  | [] => needle.isEmpty
  | x :: tl => needle.isPrefixOf (x :: tl) || listIsInfixOf needle tl

/-- Substring test, as Rust str::contains. -/
def containsSubstr (s sub : String) : Bool := listIsInfixOf sub.data s.data

/-- Suffix test, as Rust str::ends_with. -/
def strEndsWith (s p : String) : Bool := p.data.isSuffixOf s.data

/-- Noise-path filter in the event loop: sass cache, temp files, editor
backups and git internals are discarded. -/
def isNoisePath (path : String) : Bool :=
  containsSubstr path ".sass-cache" || containsSubstr path ".tmp"
    || strEndsWith path "~" || containsSubstr path "/.git/"

/-- An incoming event queues work and resets the timer exactly when its
kind is relevant and at least one of its paths survives the noise filter. -/
def relevantEvent (kind : FsEventKind) (paths : List String) : Bool :=
  kindRelevant kind && !(paths.filter (fun p => !isNoisePath p)).isEmpty

/-- The debounce interval of the loop, in milliseconds. -/
def debounce_duration : Nat := 500

/-- Rebuild times of the event loop, given the arrival times (ms, strictly
increasing) of the remaining relevant events of a trace that ends
quiescent, and the arrival time of the latest already-queued event, if any:
with pending work the loop sleeps until last + 500; an event arriving
earlier becomes the new timer origin (the reset), otherwise the deadline
fires one rebuild and clears the pending set before the event starts a new
accumulation.  A tie between deadline and arrival is resolved for the event
(tokio timeout polls the receiver future first). -/
def rebuildTimes : List Nat → Option Nat → List Nat
  | [], none => []
  | [], some last => [last + debounce_duration]
  | e :: es, none => rebuildTimes es (some e)
  | e :: es, some last =>
    if e < last + debounce_duration then rebuildTimes es (some e)
    else (last + debounce_duration) :: rebuildTimes es (some e)

/-! ## Snapshot swap (main.rs)

The shared RenderedSite slot is guarded by an RwLock, so reader and writer
critical sections linearise into a sequence of atomic actions; a trace
interleaves the coordinator build steps with snapshot reads by request
handlers.  Field values are modelled by the generation number of the
rebuild that produced them. -/

/-- RenderedSite with every field replaced by the generation that built
it. -/
structure RenderedSiteGen where
  pages_data : Nat
  aliases : Nat
  sitemap : Nat
  rss_feed : Nat
  atom_feed : Nat
  last_modified : Nat
deriving DecidableEq, Repr

/-- preload_pages_data returns a complete snapshot of one generation. -/
def buildSnapshot (g : Nat) : RenderedSiteGen :=
  { pages_data := g, aliases := g, sitemap := g, rss_feed := g, atom_feed := g,
    last_modified := g }

/-- Number of build steps of one rebuild, one per field of the snapshot. -/
def snapshotFieldCount : Nat := 6

/-- An in-progress rebuild: its generation and how much of it has been
assembled in the coordinator task local state. -/
structure PartialBuild where
  gen : Nat
  fieldsDone : Nat
deriving DecidableEq, Repr

/-- Coordinator-visible state: the lock-guarded shared slot and the local
snapshot under construction. -/
structure CoordState where
  shared : RenderedSiteGen
  building : Option PartialBuild
deriving DecidableEq, Repr

/-- Atomic actions of the linearised trace. -/
inductive CoordEvent where
  | startBuild (g : Nat)
  | buildStep
  | publish
  | read
deriving DecidableEq

/-- One atomic action: building mutates only the coordinator local state;
publish installs the completed snapshot by the single whole-record
assignment under the write lock; read returns the shared slot under the
read lock. -/
def coordStep (st : CoordState) : CoordEvent → CoordState
  | .startBuild g => { st with building := some { gen := g, fieldsDone := 0 } }
  | .buildStep =>
    match st.building with
    | some pb => { st with building := some { pb with fieldsDone := pb.fieldsDone + 1 } }
    | none => st
  | .publish =>
    match st.building with
    | some pb =>
      if snapshotFieldCount ≤ pb.fieldsDone then
        { shared := buildSnapshot pb.gen, building := none }
      else st
    | none => st
  | .read => st

/-- The snapshots observed by readers along a trace. -/
def coordObservations : CoordState → List CoordEvent → List RenderedSiteGen
  | _, [] => []
  | st, e :: es =>
    (if e = .read then [st.shared] else []) ++ coordObservations (coordStep st e) es

/-- All fields of one observed snapshot come from the same build. -/
def sameGeneration (s : RenderedSiteGen) : Prop :=
  s.aliases = s.pages_data ∧ s.sitemap = s.pages_data ∧ s.rss_feed = s.pages_data
    ∧ s.atom_feed = s.pages_data ∧ s.last_modified = s.pages_data

/-! ## Helper lemmas for the range parser -/

theorem stripPrefixStr_append (p : String) (rest : List Char) :
    stripPrefixStr ⟨p.data ++ rest⟩ p = some ⟨rest⟩ := by
  unfold stripPrefixStr
  rw [if_pos]
  · exact congrArg (fun l => some (String.mk l)) (List.drop_left p.data rest)
  · exact List.isPrefixOf_iff_prefix.mpr (List.prefix_append _ _)

theorem splitCharList_cons_sep (c : Char) (r : List Char) :
    splitCharList c (c :: r) = [] :: splitCharList c r := by
  simp [splitCharList]

theorem splitCharList_append_sep (c : Char) (l r : List Char) (h : c ∉ l) :
    splitCharList c (l ++ c :: r) = l :: splitCharList c r := by
  induction l with
  | nil => simp [splitCharList]
  | cons x xs ih =>
    have hx : ¬ x = c := fun he => h (he ▸ List.mem_cons_self x xs)
    have hxs : c ∉ xs := fun hc => h (List.mem_cons_of_mem x hc)
    show splitCharList c (x :: (xs ++ c :: r)) = (x :: xs) :: splitCharList c r
    rw [splitCharList, if_neg hx, ih hxs]

theorem parse_range_header_strip (hv v : String) (L : Nat)
    (h : stripPrefixStr hv "bytes=" = some v) :
    parse_range_header (some hv) L = parseRangeValue v L := by
  simp [parse_range_header, h]

theorem splitOnChar_open (ds : List Char) (hds : '-' ∉ ds) :
    splitOnChar '-' ⟨ds ++ ['-']⟩ = [⟨ds⟩, ⟨[]⟩] := by
  unfold splitOnChar
  show (splitCharList '-' (ds ++ '-' :: [])).map _ = _
  rw [splitCharList_append_sep '-' ds [] hds]
  rfl

theorem splitOnChar_suffix (ds : List Char) :
    splitOnChar '-' ⟨'-' :: ds⟩ = ⟨[]⟩ :: (splitCharList '-' ds).map (fun l => ⟨l⟩) := by
  unfold splitOnChar
  show (splitCharList '-' ('-' :: ds)).map _ = _
  rw [splitCharList_cons_sep]
  rfl

theorem into_response_status_ne_304 (m : HttpMethod) (content : List Nat)
    (r : Option ByteRange) : (into_response m 200 content r).status ≠ 304 := by
  unfold into_response
  split
  · simp
  · cases r with
    | none => simp
    | some rr =>
      simp only
      split <;> simp

/-- C1: for a single bytes=start-end Range on an existing resource of length
L, the spec claims 206 with the slice when start <= end < L and 416 with
Content-Range bytes */L otherwise.  The code disagrees on both sides of the
boundary: an unsatisfiable range is dropped by parse_range_header, so the
server answers 200 with the full body, and the satisfiable range 0-19 on a
20-byte resource (end = L-1) trips the off-by-one check range.end >= len in
into_response and answers 416; only ranges with end < L-1 produce the
claimed 206, as the third conjunct shows for 0-9. -/
theorem c1_range_response_failing_inputs :
    (serve_resource .get none (some "bytes=100-200") (List.range 20) 0
      = { status := 200, contentRange := none, contentLength := some 20,
          body := List.range 20 })
    ∧ (serve_resource .get none (some "bytes=0-19") (List.range 20) 0
      = { status := 416, contentRange := some "bytes */20", contentLength := none,
          body := [] })
    ∧ (serve_resource .get none (some "bytes=0-9") (List.range 20) 0
      = { status := 206, contentRange := some "bytes 0-9/20", contentLength := some 10,
          body := List.range 10 }) := by
  refine ⟨?_, ?_, ?_⟩ <;> decide

/-- Characterization of the serve path over the already-parsed
If-Modified-Since value: the response is 304 exactly when the value parsed
and is at least the last-modified time truncated to whole seconds, and the
304 response carries an empty body. -/
theorem serve_resource_304_iff (method : HttpMethod) (ims : Option Nat)
    (range_header : Option String) (content : List Nat) (lm : Nat) :
    ((serve_resource method ims range_header content lm).status = 304
      ↔ ∃ t, ims = some t ∧ truncToSecs lm ≤ t)
    ∧ ((serve_resource method ims range_header content lm).status = 304
      ↔ serve_resource method ims range_header content lm
        = { status := 304, contentRange := none, contentLength := none, body := [] }) := by
  unfold serve_resource check_if_modified_and_etag
  cases ims with
  | none =>
    simp only
    constructor
    · simp [into_response_status_ne_304 method content]
    · constructor
      · intro h
        exact absurd h (into_response_status_ne_304 method content _)
      · intro h
        rw [h]
  | some t =>
    by_cases h : truncToSecs lm ≤ t
    · simp [h]
    · simp only [if_neg h]
      constructor
      · simp [into_response_status_ne_304 method content, h]
      · constructor
        · intro hc
          exact absurd hc (into_response_status_ne_304 method content _)
        · intro hc
          rw [hc]

/-- C2: check_if_modified_and_etag decodes the raw header with
to_str().unwrap() before parsing, so an If-Modified-Since value containing
a byte outside visible ASCII (accepted on the wire as obs-text, 0xFF in
the concrete conjunct) panics the handler — whatever the external date
parser returns — instead of being treated as absent; decodable values
behave as the claim states: 304 with empty body exactly when the value
parses to at least the last-modified time truncated to whole seconds, with
a parse failure or missing header yielding the normal non-304 response. -/
theorem c2_if_modified_since_panic_and_iff (parseHttpDate : String → Option Nat)
    (method : HttpMethod) (range_header : Option String) (content : List Nat) (lm : Nat) :
    (∀ bytes : List Nat,
      serve_resource_raw parseHttpDate method (some bytes) range_header content lm
          = HandlerOutcome.panicked
        ↔ bytes.all isVisibleAscii = false)
    ∧ serve_resource_raw parseHttpDate method (some [255]) range_header content lm
        = HandlerOutcome.panicked
    ∧ (∀ bytes : List Nat,
        serve_resource_raw parseHttpDate method (some bytes) range_header content lm
          = (match headerToStr bytes with
             | none => HandlerOutcome.panicked
             | some s =>
               HandlerOutcome.ok
                 (serve_resource method (parseHttpDate s) range_header content lm)))
    ∧ serve_resource_raw parseHttpDate method none range_header content lm
        = HandlerOutcome.ok (serve_resource method none range_header content lm)
    ∧ (∀ ims : Option Nat,
        ((serve_resource method ims range_header content lm).status = 304
          ↔ ∃ t, ims = some t ∧ truncToSecs lm ≤ t)
        ∧ ((serve_resource method ims range_header content lm).status = 304
          ↔ serve_resource method ims range_header content lm
            = { status := 304, contentRange := none, contentLength := none,
                body := [] })) := by
  refine ⟨?_, ?_, ?_, rfl, fun ims => serve_resource_304_iff method ims range_header content lm⟩
  · intro bytes
    cases h : bytes.all isVisibleAscii with
    | false => simp [serve_resource_raw, headerToStr, h]
    | true => simp [serve_resource_raw, headerToStr, h]
  · rfl
  · intro bytes
    simp only [serve_resource_raw]

/-- C9 counterexample: the claim says only headers of the forms
bytes=start-end and bytes=start can yield Some, but bytes=1-2-3 is neither
(its second dash-separated field 2 does not make it bytes=1-2, and 2-3 is
not a number) and still parses to the range 1..3, producing a 206 on a
10-byte resource. -/
theorem c9_range_forms_counterexample :
    parse_range_header (some "bytes=1-2-3") 10 = some ⟨1, 3⟩
    ∧ isClaimedRangeForm "bytes=1-2-3" = false
    ∧ (serve_resource .get none (some "bytes=1-2-3") (List.range 10) 0).status = 206 := by
  refine ⟨?_, ?_, ?_⟩ <;> decide

/-- C9 amended: open-ended (bytes=start-) and suffix (bytes=-n) ranges are
rejected by parse_range_header, so such requests are served 200 with the
full body; and a header yields Some exactly when, after the bytes= prefix,
the first dash-separated field parses as u64 as start, the second field —
defaulting to total_length - 1 when the split produced a single field —
parses as u64 as end with fields after the second ignored, and
start <= end < total_length holds, the resulting range being start..end+1.
In particular junk-tail forms like bytes=1-2-3 are accepted besides the
two claimed forms. -/
theorem c9_range_forms_amended :
    (∀ (ds : List Char) (L : Nat), '-' ∉ ds →
      parse_range_header (some ⟨"bytes=".data ++ (ds ++ ['-'])⟩) L = none)
    ∧ (∀ (ds : List Char) (L : Nat),
      parse_range_header (some ⟨"bytes=".data ++ ('-' :: ds)⟩) L = none)
    ∧ (∀ (hv : String) (L : Nat) (r : ByteRange),
      parse_range_header (some hv) L = some r ↔
        ∃ v p0 ps s e, stripPrefixStr hv "bytes=" = some v
          ∧ splitOnChar '-' v = p0 :: ps
          ∧ parseU64 p0 = some s
          ∧ (match ps with
             | [] => some (L - 1)
             | p1 :: _ => parseU64 p1) = some e
          ∧ s ≤ e ∧ e < L ∧ r = ⟨s, e + 1⟩)
    ∧ (∀ (ds : List Char) (content : List Nat) (lm : Nat), '-' ∉ ds →
      serve_resource .get none (some ⟨"bytes=".data ++ (ds ++ ['-'])⟩) content lm
        = { status := 200, contentRange := none, contentLength := some content.length,
            body := content }) := by
  have hempty : parseU64 ⟨([] : List Char)⟩ = none := rfl
  have hopen : ∀ (ds : List Char) (L : Nat), '-' ∉ ds →
      parse_range_header (some ⟨"bytes=".data ++ (ds ++ ['-'])⟩) L = none := by
    intro ds L hds
    rw [parse_range_header_strip _ ⟨ds ++ ['-']⟩ L (stripPrefixStr_append "bytes=" _)]
    unfold parseRangeValue
    rw [splitOnChar_open ds hds]
    cases hp : parseU64 ⟨ds⟩ with
    | none => simp [hp]
    | some s => simp [hp, hempty]
  refine ⟨hopen, ?_, ?_, ?_⟩
  · intro ds L
    rw [parse_range_header_strip _ ⟨'-' :: ds⟩ L (stripPrefixStr_append "bytes=" _)]
    unfold parseRangeValue
    rw [splitOnChar_suffix]
    simp [hempty]
  · intro hv L r
    constructor
    · intro hparse
      simp only [parse_range_header, Option.some_bind] at hparse
      cases hstrip : stripPrefixStr hv "bytes=" with
      | none => rw [hstrip] at hparse; simp at hparse
      | some v =>
        rw [hstrip] at hparse
        simp only [Option.some_bind] at hparse
        unfold parseRangeValue at hparse
        cases hsplit : splitOnChar '-' v with
        | nil => rw [hsplit] at hparse; simp at hparse
        | cons p0 ps =>
          rw [hsplit] at hparse
          simp only [List.head?_cons, List.tail_cons, Option.some_bind] at hparse
          cases hp0 : parseU64 p0 with
          | none => rw [hp0] at hparse; simp at hparse
          | some s =>
            rw [hp0] at hparse
            simp only [Option.some_bind] at hparse
            cases ps with
            | nil =>
              simp only [List.head?_nil, Option.elim_none, Option.some_bind] at hparse
              split at hparse
              · rename_i hcond
                simp only [Option.some.injEq] at hparse
                exact ⟨v, p0, [], s, L - 1, rfl, hsplit, hp0, rfl, hcond.1, hcond.2,
                  hparse.symm⟩
              · exact absurd hparse (by simp)
            | cons p1 rest =>
              simp only [List.head?_cons, Option.elim_some] at hparse
              cases hp1 : parseU64 p1 with
              | none => rw [hp1] at hparse; simp at hparse
              | some e =>
                rw [hp1] at hparse
                simp only [Option.some_bind] at hparse
                split at hparse
                · rename_i hcond
                  simp only [Option.some.injEq] at hparse
                  exact ⟨v, p0, p1 :: rest, s, e, rfl, hsplit, hp0, hp1, hcond.1,
                    hcond.2, hparse.symm⟩
                · exact absurd hparse (by simp)
    · rintro ⟨v, p0, ps, s, e, hstrip, hsplit, hp0, he, hse, heL, hr⟩
      subst hr
      rw [parse_range_header_strip hv v L hstrip]
      unfold parseRangeValue
      rw [hsplit]
      simp only [List.head?_cons, List.tail_cons, Option.some_bind, hp0]
      cases ps with
      | nil =>
        simp only at he
        simp only [List.head?_nil, Option.elim_none, Option.some_bind, Option.some.injEq]
          at he ⊢
        rw [if_pos ⟨he ▸ hse, he ▸ heL⟩]
        rw [he]
      | cons p1 rest =>
        simp only at he
        simp only [List.head?_cons, Option.elim_some, he, Option.some_bind]
        rw [if_pos ⟨hse, heL⟩]
  · intro ds content lm hds
    unfold serve_resource check_if_modified_and_etag
    simp only
    rw [hopen ds content.length hds]
    unfold into_response
    simp

/-- C9 witness: the amended theorem applied at concrete headers — the
open-ended header bytes=100- and the suffix header bytes=-5 are rejected,
the characterization yields Some for bytes=2-5 on a 20-byte resource, and
the open-ended request is served 200 with the full 20-byte body. -/
theorem c9_range_forms_amended_witness :
    parse_range_header (some "bytes=100-") 20 = none
    ∧ parse_range_header (some "bytes=-5") 20 = none
    ∧ parse_range_header (some "bytes=2-5") 20 = some ⟨2, 6⟩
    ∧ serve_resource .get none (some "bytes=100-") (List.range 20) 0
      = { status := 200, contentRange := none, contentLength := some 20,
          body := List.range 20 } := by
  have h1 := c9_range_forms_amended.1 "100".data 20 (by decide)
  have h2 := c9_range_forms_amended.2.1 "5".data 20
  have h3 := (c9_range_forms_amended.2.2.1 "bytes=2-5" 20 ⟨2, 6⟩).mpr
    ⟨"2-5", "2", ["5"], 2, 5, by decide, by decide, by decide, by decide, by decide,
      by decide, rfl⟩
  have h4 := c9_range_forms_amended.2.2.2 "100".data (List.range 20) 0 (by decide)
  have e1 : (String.mk ("bytes=".data ++ ("100".data ++ ['-']))) = "bytes=100-" := by decide
  have e2 : (String.mk ("bytes=".data ++ ('-' :: "5".data))) = "bytes=-5" := by decide
  rw [e1] at h1 h4
  rw [e2] at h2
  exact ⟨h1, h2, h3, by simpa using h4⟩

/-! ## Comparator lemmas -/

theorem then_eq_lt {o₁ o₂ : Ordering} : o₁.then o₂ = .lt ↔ o₁ = .lt ∨ (o₁ = .eq ∧ o₂ = .lt) := by
  cases o₁ <;> cases o₂ <;> simp [Ordering.then]

theorem then_eq_eq {o₁ o₂ : Ordering} : o₁.then o₂ = .eq ↔ o₁ = .eq ∧ o₂ = .eq := by
  cases o₁ <;> cases o₂ <;> simp [Ordering.then]

theorem cmp3_eq_iff {α : Type} [LinearOrder α] {a b : α} : cmp3 a b = .eq ↔ a = b := by
  unfold cmp3
  split_ifs with h1 h2
  · exact iff_of_false (by simp) (ne_of_lt h1)
  · exact iff_of_false (by simp) (ne_of_gt h2)
  · exact iff_of_true rfl (le_antisymm (not_lt.mp h2) (not_lt.mp h1))

theorem cmp3_lt_iff {α : Type} [LinearOrder α] {a b : α} : cmp3 a b = .lt ↔ a < b := by
  unfold cmp3
  split_ifs with h1 h2
  · exact iff_of_true rfl h1
  · exact iff_of_false (by simp) h1
  · exact iff_of_false (by simp) h1

theorem cmp3_gt_iff {α : Type} [LinearOrder α] {a b : α} : cmp3 a b = .gt ↔ b < a := by
  unfold cmp3
  split_ifs with h1 h2
  · exact iff_of_false (by simp) (fun h => lt_asymm h1 h)
  · exact iff_of_true rfl h2
  · exact iff_of_false (by simp) h2

theorem cmp3_swap {α : Type} [LinearOrder α] (a b : α) : cmp3 a b = (cmp3 b a).swap := by
  cases h : cmp3 b a with
  | lt => exact cmp3_gt_iff.mpr (cmp3_lt_iff.mp h)
  | eq => exact cmp3_eq_iff.mpr (cmp3_eq_iff.mp h).symm
  | gt => exact cmp3_lt_iff.mpr (cmp3_gt_iff.mp h)

theorem listCmp_cons (a b : Char) (as bs : List Char) :
    listCmp (a :: as) (b :: bs) = (cmp3 a b).then (listCmp as bs) := by
  cases h : cmp3 a b <;> simp [listCmp, h, Ordering.then]

theorem listCmp_eq_iff {l₁ l₂ : List Char} : listCmp l₁ l₂ = .eq ↔ l₁ = l₂ := by
  induction l₁ generalizing l₂ with
  | nil => cases l₂ <;> simp [listCmp]
  | cons a as ih =>
    cases l₂ with
    | nil => simp [listCmp]
    | cons b bs =>
      rw [listCmp_cons, then_eq_eq]
      simp [cmp3_eq_iff, ih]

theorem listCmp_swap (l₁ l₂ : List Char) : listCmp l₁ l₂ = (listCmp l₂ l₁).swap := by
  induction l₁ generalizing l₂ with
  | nil => cases l₂ <;> simp [listCmp, Ordering.swap]
  | cons a as ih =>
    cases l₂ with
    | nil => simp [listCmp, Ordering.swap]
    | cons b bs =>
      rw [listCmp_cons, listCmp_cons, Ordering.swap_then, ← cmp3_swap, ← ih]

theorem listCmp_lt_trans {l₁ l₂ l₃ : List Char} (h₁ : listCmp l₁ l₂ = .lt)
    (h₂ : listCmp l₂ l₃ = .lt) : listCmp l₁ l₃ = .lt := by
  induction l₁ generalizing l₂ l₃ with
  | nil =>
    cases l₂ with
    | nil => simp [listCmp] at h₁
    | cons b bs =>
      cases l₃ with
      | nil => simp [listCmp] at h₂
      | cons c cs => simp [listCmp]
  | cons a as ih =>
    cases l₂ with
    | nil => simp [listCmp] at h₁
    | cons b bs =>
      cases l₃ with
      | nil => simp [listCmp] at h₂
      | cons c cs =>
        rw [listCmp_cons, then_eq_lt] at h₁ h₂ ⊢
        rcases h₁ with h₁ | ⟨h₁e, h₁r⟩
        · rcases h₂ with h₂ | ⟨h₂e, h₂r⟩
          · exact Or.inl (cmp3_lt_iff.mpr (lt_trans (cmp3_lt_iff.mp h₁) (cmp3_lt_iff.mp h₂)))
          · rw [cmp3_eq_iff.mp h₂e] at h₁
            exact Or.inl h₁
        · rcases h₂ with h₂ | ⟨h₂e, h₂r⟩
          · rw [← cmp3_eq_iff.mp h₁e] at h₂
            exact Or.inl h₂
          · rw [cmp3_eq_iff.mp h₁e] at *
            exact Or.inr ⟨h₂e, ih h₁r h₂r⟩

theorem strCmp_eq_iff {a b : String} : strCmp a b = .eq ↔ a = b := by
  unfold strCmp
  rw [listCmp_eq_iff]
  exact ⟨fun h => String.ext h, fun h => by rw [h]⟩

theorem strCmp_swap (a b : String) : strCmp a b = (strCmp b a).swap := listCmp_swap _ _

theorem strCmp_lt_trans {a b c : String} (h₁ : strCmp a b = .lt) (h₂ : strCmp b c = .lt) :
    strCmp a c = .lt := listCmp_lt_trans h₁ h₂

theorem dateCmp_eq (x y : Option String) (h : dateCmp x y = .eq) : x = y := by
  cases x <;> cases y <;> simp [dateCmp] at h ⊢
  exact (strCmp_eq_iff.mp h).symm

theorem dateCmp_swap (x y : Option String) : dateCmp x y = (dateCmp y x).swap := by
  cases x <;> cases y <;> simp [dateCmp, Ordering.swap]
  exact strCmp_swap _ _

theorem dateCmp_lt_trans {x y z : Option String} (h₁ : dateCmp x y = .lt)
    (h₂ : dateCmp y z = .lt) : dateCmp x z = .lt := by
  cases x <;> cases y <;> cases z <;> simp [dateCmp] at h₁ h₂ ⊢
  exact strCmp_lt_trans h₂ h₁

theorem key_cmp_then (a b : PageSortKey) :
    PageSortKey.cmp a b
      = (cmp3 a.sort_key b.sort_key).then
          ((dateCmp a.date b.date).then (strCmp a.slug b.slug)) := by
  unfold PageSortKey.cmp dateCmp
  cases cmp3 a.sort_key b.sort_key <;> cases a.date <;> cases b.date <;>
    simp [Ordering.then] <;> (cases strCmp _ _ <;> simp [Ordering.then])

theorem key_cmp_eq {a b : PageSortKey} (h : PageSortKey.cmp a b = .eq) : a = b := by
  rw [key_cmp_then, then_eq_eq, then_eq_eq] at h
  obtain ⟨h1, h2, h3⟩ := h
  obtain ⟨ask, ad, aslug⟩ := a
  obtain ⟨bsk, bd, bslug⟩ := b
  simp only at h1 h2 h3
  rw [cmp3_eq_iff.mp h1, dateCmp_eq _ _ h2, strCmp_eq_iff.mp h3]

theorem key_cmp_swap (a b : PageSortKey) :
    PageSortKey.cmp a b = (PageSortKey.cmp b a).swap := by
  rw [key_cmp_then, key_cmp_then, Ordering.swap_then, Ordering.swap_then, ← cmp3_swap,
    ← dateCmp_swap, ← strCmp_swap]

theorem key_cmp_lt_trans {a b c : PageSortKey} (h₁ : PageSortKey.cmp a b = .lt)
    (h₂ : PageSortKey.cmp b c = .lt) : PageSortKey.cmp a c = .lt := by
  rw [key_cmp_then, then_eq_lt] at h₁ h₂ ⊢
  rcases h₁ with h₁ | ⟨h₁e, h₁r⟩
  · rcases h₂ with h₂ | ⟨h₂e, h₂r⟩
    · exact Or.inl (cmp3_lt_iff.mpr (lt_trans (cmp3_lt_iff.mp h₁) (cmp3_lt_iff.mp h₂)))
    · rw [cmp3_eq_iff.mp h₂e] at h₁
      exact Or.inl h₁
  · rcases h₂ with h₂ | ⟨h₂e, h₂r⟩
    · rw [← cmp3_eq_iff.mp h₁e] at h₂
      exact Or.inl h₂
    · refine Or.inr ⟨by rw [cmp3_eq_iff.mp h₁e, cmp3_eq_iff.mp h₂e]; exact cmp3_eq_iff.mpr rfl, ?_⟩
      rw [then_eq_lt] at h₁r h₂r ⊢
      rcases h₁r with h₁r | ⟨h₁re, h₁rr⟩
      · rcases h₂r with h₂r | ⟨h₂re, h₂rr⟩
        · exact Or.inl (dateCmp_lt_trans h₁r h₂r)
        · rw [dateCmp_eq _ _ h₂re] at h₁r
          exact Or.inl h₁r
      · rcases h₂r with h₂r | ⟨h₂re, h₂rr⟩
        · rw [← dateCmp_eq _ _ h₁re] at h₂r
          exact Or.inl h₂r
        · refine Or.inr ⟨by
            rw [dateCmp_eq _ _ h₁re, dateCmp_eq _ _ h₂re]
            cases c.date <;> simp [dateCmp, strCmp_eq_iff], ?_⟩
          exact strCmp_lt_trans h₁rr h₂rr

theorem key_cmp_not_lt_trans {a b c : PageSortKey} (hab : PageSortKey.cmp a b ≠ .lt)
    (hbc : PageSortKey.cmp b c ≠ .lt) : PageSortKey.cmp a c ≠ .lt := by
  intro hac
  cases hcab : PageSortKey.cmp a b with
  | lt => exact hab hcab
  | eq => exact hbc (by rw [← key_cmp_eq hcab]; exact hac)
  | gt =>
    have hba : PageSortKey.cmp b a = .lt := by
      have := key_cmp_swap b a
      rw [hcab] at this
      exact this ▸ rfl
    exact hbc (key_cmp_lt_trans hba hac)

theorem key_cmp_not_lt_total (a b : PageSortKey) :
    PageSortKey.cmp a b ≠ .lt ∨ PageSortKey.cmp b a ≠ .lt := by
  cases h : PageSortKey.cmp a b with
  | lt =>
    right
    rw [key_cmp_swap b a, h]
    simp [Ordering.swap]
  | eq => exact Or.inl (by simp [h])
  | gt => exact Or.inl (by simp [h])

/-! ## Sibling order theorems -/




theorem insertIntoGroups_spec (groups : List (String × List (String × PageMetadata)))
    (key : String) (page : String × PageMetadata)
    (hg : ∀ e ∈ groups, ∀ p ∈ e.2, parentPrefixOfSlug p.1 = e.1)
    (hk : parentPrefixOfSlug page.1 = key) :
    ∀ e ∈ insertIntoGroups groups key page, ∀ p ∈ e.2, parentPrefixOfSlug p.1 = e.1 := by
  induction groups with
  | nil =>
    intro e he p hp
    simp [insertIntoGroups] at he
    subst he
    simp at hp
    subst hp
    exact hk
  | cons hd rest ih =>
    obtain ⟨k, g⟩ := hd
    intro e he p hp
    simp only [insertIntoGroups] at he
    by_cases hkey : k = key
    · rw [if_pos hkey] at he
      rcases List.mem_cons.mp he with he | he
      · subst he
        simp only at hp
        rcases List.mem_append.mp hp with hp | hp
        · exact hg (k, g) (List.mem_cons_self _ _) p hp
        · simp at hp
          subst hp
          rw [hk, hkey]
      · exact hg e (List.mem_cons_of_mem _ he) p hp
    · rw [if_neg hkey] at he
      rcases List.mem_cons.mp he with he | he
      · subst he
        exact hg (k, g) (List.mem_cons_self _ _) p hp
      · exact ih (fun e' he' => hg e' (List.mem_cons_of_mem _ he')) e he p hp

theorem prefixGroups_spec (pages : List (String × PageMetadata)) :
    ∀ e ∈ prefixGroups pages, ∀ p ∈ e.2, parentPrefixOfSlug p.1 = e.1 := by
  unfold prefixGroups
  suffices h : ∀ (l : List (String × PageMetadata))
      (acc : List (String × List (String × PageMetadata))),
      (∀ e ∈ acc, ∀ p ∈ e.2, parentPrefixOfSlug p.1 = e.1) →
      ∀ e ∈ l.foldl (fun groups p => insertIntoGroups groups (parentPrefixOfSlug p.1) p) acc,
        ∀ p ∈ e.2, parentPrefixOfSlug p.1 = e.1 by
    exact h pages [] (by simp)
  intro l
  induction l with
  | nil => intro acc hacc; simpa using hacc
  | cons x xs ih =>
    intro acc hacc
    exact ih _ (insertIntoGroups_spec acc _ x hacc rfl)

/-- C3 amended: every stored sibling group is a permutation of its prefix
group, every member has the group prefix as its parent prefix, the stored
order is sorted descending by PageSortKey (consecutive and hence all pairs
x before y satisfy cmp x y != Lt), and among siblings of equal priority
every undated page precedes every dated page. -/
theorem c3_sibling_order_amended (pages : List (String × PageMetadata))
    (pre : String) (ord : List (String × PageMetadata))
    (hmem : (pre, ord) ∈ siblingOrdersPaired pages) :
    (∀ p ∈ ord, parentPrefixOfSlug p.1 = pre)
    ∧ (∃ g, (pre, g) ∈ prefixGroups pages ∧ ord.Perm g)
    ∧ List.Pairwise siblingRel ord
    ∧ List.Pairwise (fun x y =>
        (pageKey x).sort_key = (pageKey y).sort_key →
          ¬((pageKey x).date.isSome = true ∧ (pageKey y).date = none)) ord := by
  haveI instTrans : IsTrans (String × PageMetadata) siblingRel :=
    ⟨fun _ _ _ => key_cmp_not_lt_trans⟩
  haveI instTotal : IsTotal (String × PageMetadata) siblingRel :=
    ⟨fun x y => key_cmp_not_lt_total (pageKey x) (pageKey y)⟩
  unfold siblingOrdersPaired at hmem
  obtain ⟨g, hgmem, hgeq⟩ := List.mem_map.mp hmem
  obtain ⟨hpre, hord⟩ : g.1 = pre ∧ sortSiblingGroup g.2 = ord := by
    constructor
    · exact congrArg Prod.fst hgeq
    · exact congrArg Prod.snd hgeq
  have hperm : ord.Perm g.2 := by
    rw [← hord]
    exact List.perm_insertionSort siblingRel g.2
  have hsorted : List.Pairwise siblingRel ord := by
    rw [← hord]
    exact List.sorted_insertionSort siblingRel g.2
  refine ⟨?_, ⟨g.2, ?_, hperm⟩, hsorted, ?_⟩
  · intro p hp
    have hpg : p ∈ g.2 := hperm.mem_iff.mp hp
    have := prefixGroups_spec pages g hgmem p hpg
    rw [← hpre]
    exact this
  · rw [← hpre]
    exact (by cases g; exact hgmem)
  · refine hsorted.imp ?_
    intro x y hrel hsk ⟨hxd, hyd⟩
    apply hrel
    obtain ⟨d, hd⟩ := Option.isSome_iff_exists.mp hxd
    rw [key_cmp_then, then_eq_lt]
    refine Or.inr ⟨cmp3_eq_iff.mpr hsk, ?_⟩
    rw [then_eq_lt]
    refine Or.inl ?_
    rw [hd, hyd]
    rfl

/-- C3 counterexample: on a prefix group holding a dated and an undated page
of equal priority, the stored sibling order puts the undated page first, so
the claim that dated pages precede undated pages in the stored order fails. -/
theorem c3_sibling_order_counterexample :
    sibling_orders fixtureSiblingPages = [("blog", ["blog/b/", "blog/a/"])]
    ∧ ¬ List.Pairwise (fun x y =>
        (pageKey x).sort_key = (pageKey y).sort_key →
          ¬((pageKey x).date = none ∧ (pageKey y).date.isSome = true))
        (sortSiblingGroup fixtureSiblingPages) := by
  constructor
  · decide
  · decide

/-- C3 witness: the amended theorem applied to the two-page fixture group. -/
theorem c3_sibling_order_amended_witness :
    (∀ p ∈ sortSiblingGroup fixtureSiblingPages, parentPrefixOfSlug p.1 = "blog")
    ∧ (∃ g, ("blog", g) ∈ prefixGroups fixtureSiblingPages
        ∧ (sortSiblingGroup fixtureSiblingPages).Perm g)
    ∧ List.Pairwise siblingRel (sortSiblingGroup fixtureSiblingPages)
    ∧ List.Pairwise (fun x y =>
        (pageKey x).sort_key = (pageKey y).sort_key →
          ¬((pageKey x).date.isSome = true ∧ (pageKey y).date = none))
        (sortSiblingGroup fixtureSiblingPages) :=
  c3_sibling_order_amended fixtureSiblingPages "blog" (sortSiblingGroup fixtureSiblingPages)
    (List.mem_singleton.mpr rfl :
      ("blog", sortSiblingGroup fixtureSiblingPages) ∈ siblingOrdersPaired fixtureSiblingPages)

/-! ## Forest invariant theorems -/


theorem buildSummaries_spec (pages : List (String × PageMetadata)) :
    ∀ e ∈ buildSummaries pages,
      e.1 ∈ pages ∧ ∀ c ∈ e.2, (∃ q ∈ pages, q.1 = c) ∧ isDirectChild c e.1.1 = true := by
  unfold buildSummaries
  suffices main : ∀ (l : List (String × PageMetadata))
      (acc : List ((String × PageMetadata) × List String)),
      (∀ x ∈ l, x ∈ pages) →
      (∀ e ∈ acc, e.1 ∈ pages
        ∧ ∀ c ∈ e.2, (∃ q ∈ pages, q.1 = c) ∧ isDirectChild c e.1.1 = true) →
      ∀ e ∈ l.foldl (fun acc p => acc ++
          [(p, (List.insertionSort childAscRel
            ((acc.map (fun e => e.1)).filter (fun q => isDirectChild q.1 p.1))).map
              (fun q => q.1))]) acc,
        e.1 ∈ pages ∧ ∀ c ∈ e.2, (∃ q ∈ pages, q.1 = c) ∧ isDirectChild c e.1.1 = true by
    exact main (List.insertionSort depthRel pages)
      [] (fun x hx => (List.mem_insertionSort depthRel).mp hx) (by simp)
  intro l
  induction l with
  | nil => intro acc _ hacc; simpa using hacc
  | cons x xs ih =>
    intro acc hl hacc
    refine ih _ (fun y hy => hl y (List.mem_cons_of_mem _ hy)) ?_
    intro e he
    rcases List.mem_append.mp he with he | he
    · exact hacc e he
    · have he' : e = (x, (List.insertionSort childAscRel
          ((acc.map (fun e => e.1)).filter (fun q => isDirectChild q.1 x.1))).map
            (fun q => q.1)) := by simpa using he
      subst he'
      refine ⟨hl x (List.mem_cons_self _ _), ?_⟩
      intro c hc
      simp only [List.mem_map] at hc
      obtain ⟨q, hq, hqc⟩ := hc
      have hq' : q ∈ (acc.map (fun e => e.1)).filter (fun q => isDirectChild q.1 x.1) :=
        (List.mem_insertionSort childAscRel).mp hq
      rw [List.mem_filter] at hq'
      obtain ⟨hqm, hqd⟩ := hq'
      simp only [List.mem_map] at hqm
      obtain ⟨e', he', heq⟩ := hqm
      have hqpages : q ∈ pages := by
        rw [← heq]
        exact (hacc e' he').1
      constructor
      · exact ⟨q, hqpages, hqc⟩
      · rw [← hqc]
        exact hqd

theorem childEdge_count (pages : List (String × PageMetadata)) {p c : String}
    (h : childEdge (buildSummaries pages) p c) : slashCount c = slashCount p + 1 := by
  obtain ⟨e, he, hep, hc⟩ := h
  have hd := ((buildSummaries_spec pages e he).2 c hc).2
  rw [hep] at hd
  unfold isDirectChild at hd
  simp only [Bool.and_eq_true, beq_iff_eq] at hd
  exact hd.2

theorem hasAdjacentSlash_append_last (l : List Char) (h : l.getLast? = some '/') :
    hasAdjacentSlash (l ++ ['/']) = true := by
  induction l with
  | nil => simp at h
  | cons x xs ih =>
    cases xs with
    | nil =>
      simp [List.getLast?] at h
      subst h
      rfl
    | cons y ys =>
      have hlast : (y :: ys).getLast? = some '/' := by
        rwa [List.getLast?_cons_cons] at h
      have ihh := ih hlast
      show hasAdjacentSlash (x :: ((y :: ys) ++ ['/'])) = true
      rw [show (y :: ys) ++ ['/'] = y :: (ys ++ ['/']) from rfl]
      unfold hasAdjacentSlash
      rw [show y :: (ys ++ ['/']) = (y :: ys) ++ ['/'] from rfl, ihh]
      simp

theorem slug_decomp {p c : String} (hwp : wellFormedSlug p = true)
    (hwc : wellFormedSlug c = true) (hd : isDirectChild c p = true) :
    ∃ seg : List Char, seg ≠ [] ∧ (∀ x ∈ seg, x ≠ '/') ∧ c.data = p.data ++ seg ++ ['/'] := by
  unfold isDirectChild at hd
  simp only [Bool.and_eq_true, beq_iff_eq, bne_iff_ne, ne_eq] at hd
  obtain ⟨⟨hpre, hne⟩, hcount⟩ := hd
  have hpre' : p.data <+: c.data := List.isPrefixOf_iff_prefix.mp hpre
  obtain ⟨rest, hrest⟩ := hpre'
  have hrestne : rest ≠ [] := by
    intro h0
    subst h0
    simp only [List.append_nil] at hrest
    exact hne (String.ext hrest.symm)
  have hcrest : rest.countP (fun x => x == '/') = 1 := by
    have hcc := congrArg (List.countP (fun x => x == '/')) hrest
    rw [List.countP_append] at hcc
    unfold slashCount at hcount
    omega
  unfold wellFormedSlug at hwp hwc
  simp only [Bool.or_eq_true, Bool.and_eq_true, beq_iff_eq, bne_iff_ne, ne_eq,
    Bool.not_eq_true', List.isEmpty_eq_false, List.isEmpty_iff] at hwp hwc
  rcases hwp with hwp | ⟨⟨⟨hpne, hplast⟩, hpadj⟩, hphead⟩
  · -- p is the root slug: the child would have to start with a slash
    exfalso
    have hpd : p.data = ['/'] := by rw [hwp]
    have hcd : c.data = '/' :: rest := by rw [← hrest, hpd]; rfl
    rcases hwc with hwc | ⟨⟨⟨hcne, hclast⟩, hcadj⟩, hchead⟩
    · rw [hwc] at hcd
      have hcd2 : ('/' : Char) :: rest = ['/'] := by
        rw [← hcd]
      simp at hcd2
      exact hrestne hcd2
    · apply hchead
      rw [hcd]
      rfl
  · rcases hwc with hwc | ⟨⟨⟨hcne, hclast⟩, hcadj⟩, hchead⟩
    · exfalso
      have hlen := congrArg List.length hrest
      rw [List.length_append] at hlen
      have hcd : c.data.length = 1 := by rw [hwc]; rfl
      have hp1 : 1 ≤ p.data.length := List.length_pos.mpr hpne
      have hr1 : 1 ≤ rest.length := List.length_pos.mpr hrestne
      omega
    · have hrlast : rest.getLast? = some '/' := by
        rw [← hrest, List.getLast?_append, List.getLast?_eq_getLast rest hrestne] at hclast
        rw [List.getLast?_eq_getLast rest hrestne]
        simpa using hclast
      have hsplit : rest.dropLast ++ ['/'] = rest :=
        List.dropLast_append_getLast? '/' (Option.mem_def.mpr hrlast)
      refine ⟨rest.dropLast, ?_, ?_, ?_⟩
      · intro h0
        apply Bool.true_eq_false.mp
        rw [← hcadj, ← hrest, ← hsplit, h0]
        simp only [List.nil_append]
        exact (hasAdjacentSlash_append_last p.data hplast).symm
      · intro x hx
        have hc0 : rest.dropLast.countP (fun x => x == '/') = 0 := by
          have hone : List.countP (fun x => x == '/') ['/'] = 1 := rfl
          have := congrArg (List.countP (fun x => x == '/')) hsplit
          rw [List.countP_append, hone] at this
          omega
        have := List.countP_eq_zero.mp hc0 x hx
        simpa using this
      · rw [← hrest, List.append_assoc]
        exact congrArg (fun l => p.data ++ l) hsplit.symm

/-- C6: under the data-model slug discipline (trailing-slash-normalized
hierarchical slugs), every child listed in a built page summary extends the
slug of its parent by exactly one nonempty segment, and the parent/child
relation is acyclic: no page is its own descendant. -/
theorem c6_forest_invariant (pages : List (String × PageMetadata))
    (hwf : ∀ p ∈ pages, wellFormedSlug p.1 = true) :
    (∀ e ∈ buildSummaries pages, ∀ c ∈ e.2,
      strStartsWith c e.1.1 = true
      ∧ ∃ seg : List Char, seg ≠ [] ∧ (∀ x ∈ seg, x ≠ '/')
          ∧ c.data = e.1.1.data ++ seg ++ ['/'])
    ∧ ∀ s, ¬ Relation.TransGen (childEdge (buildSummaries pages)) s s := by
  constructor
  · intro e he c hc
    obtain ⟨hein, hch⟩ := buildSummaries_spec pages e he
    obtain ⟨⟨q, hq, hqc⟩, hdc⟩ := hch c hc
    have hwc : wellFormedSlug c = true := by rw [← hqc]; exact hwf q hq
    have hwp : wellFormedSlug e.1.1 = true := hwf e.1 hein
    constructor
    · unfold isDirectChild at hdc
      simp only [Bool.and_eq_true] at hdc
      exact hdc.1.1
    · exact slug_decomp hwp hwc hdc
  · intro s hcyc
    have hmono : ∀ a b, Relation.TransGen (childEdge (buildSummaries pages)) a b →
        slashCount a < slashCount b := by
      intro a b h
      induction h with
      | single h1 =>
        have := childEdge_count pages h1
        omega
      | tail _ h2 ih =>
        have := childEdge_count pages h2
        omega
    exact absurd (hmono s s hcyc) (lt_irrefl _)

/-- C6 witness: the theorem applied to a concrete four-page site. -/
theorem c6_forest_invariant_witness :
    (∀ e ∈ buildSummaries fixtureForestPages, ∀ c ∈ e.2,
      strStartsWith c e.1.1 = true
      ∧ ∃ seg : List Char, seg ≠ [] ∧ (∀ x ∈ seg, x ≠ '/')
          ∧ c.data = e.1.1.data ++ seg ++ ['/'])
    ∧ ∀ s, ¬ Relation.TransGen (childEdge (buildSummaries fixtureForestPages)) s s :=
  c6_forest_invariant fixtureForestPages (by decide)

/-! ## Breadcrumb theorems -/

/-- C4: the breadcrumb ancestor lookup can never carry an existing page
title: ancestor keys are built without a trailing slash while every slug in
pages_metadata ends with one (slugify always appends it).  On a metadata map
containing a page at slug blog/ titled Blog, the breadcrumb item for the
ancestor blog of page blog/post/ falls back to the raw prefix path blog
instead of carrying the title, while the root item (looked up at the exact
key "/") does carry its title and the final segment is excluded. -/
theorem c4_breadcrumb_title_lookup_bug :
    generate_breadcrumbs_from_metadata "blog/post/" fixtureBreadcrumbMetadata
      "https://example.com"
      = [{ title := "Home", url := "https://example.com/", is_current := false },
         { title := "blog", url := "https://example.com/blog/", is_current := false }]
    ∧ (assocGet fixtureBreadcrumbMetadata "blog/").bind (fun m => m.title) = some "Blog"
    ∧ (assocGet fixtureBreadcrumbMetadata "blog").bind (fun m => m.title) = none := by
  refine ⟨?_, ?_, ?_⟩ <;> decide

/-! ## URL rewriter theorems -/

/-- C5: should_rewrite_attr accepts exactly href, src, and action on form;
and rewrite_single_url follows the spec classification in order — special
or empty values are returned trimmed but otherwise unchanged, values with a
scheme are returned unchanged, a leading slash resolves against the site
base, and anything else resolves against the current page URL. -/
theorem c5_url_classification (tag_name attr_name value : String)
    (site_base current_url : UrlModel) :
    (should_rewrite_attr tag_name attr_name = true
      ↔ attr_name = "href" ∨ attr_name = "src" ∨ (attr_name = "action" ∧ tag_name = "form"))
    ∧ rewrite_single_url value site_base current_url =
        (match specClassifyUrl (strTrim value) with
         | .special => strTrim value
         | .absolute => strTrim value
         | .siteRelative => urlToString (urlJoin site_base (strTrim value))
         | .docRelative => urlToString (urlJoin current_url (strTrim value))) := by
  constructor
  · unfold should_rewrite_attr
    have hah : ("action" : String) ≠ "href" := by decide
    have has : ("action" : String) ≠ "src" := by decide
    split_ifs with h1 h2
    · simp only [Bool.or_eq_true, beq_iff_eq] at h1
      exact iff_of_true rfl (by tauto)
    · simp only [Bool.or_eq_true, beq_iff_eq] at h1
      push_neg at h1
      simp only [beq_iff_eq] at h2
      subst h2
      constructor
      · intro h
        simp only [beq_iff_eq] at h
        exact Or.inr (Or.inr ⟨rfl, h⟩)
      · intro h
        rcases h with h | h | ⟨_, h⟩
        · exact absurd h hah
        · exact absurd h has
        · simp [h]
    · simp only [Bool.or_eq_true, beq_iff_eq] at h1
      push_neg at h1
      simp only [beq_iff_eq] at h2
      exact iff_of_false (by simp) (by tauto)
  · simp only [rewrite_single_url, specClassifyUrl]
    split_ifs <;> rfl

/-! ## Token sink theorems -/

theorem process_token_none_iff (sb cu : UrlModel) (st : SinkState) (t : HtmlToken) :
    process_token sb cu st t = none ↔ isParseErrorToken t = true := by
  cases t <;> simp [process_token, isParseErrorToken]

theorem runSink_none_iff (sb cu : UrlModel) (ts : List HtmlToken) :
    ∀ st, runSink sb cu st ts = none ↔ ∃ t ∈ ts, isParseErrorToken t = true := by
  induction ts with
  | nil => intro st; simp [runSink]
  | cons t ts ih =>
    intro st
    unfold runSink
    cases hp : process_token sb cu st t with
    | none =>
      constructor
      · intro _
        exact ⟨t, List.mem_cons_self _ _, (process_token_none_iff sb cu st t).mp hp⟩
      · intro _
        rfl
    | some st2 =>
      have hnp : isParseErrorToken t = false := by
        rcases hb : isParseErrorToken t with _ | _
        · rfl
        · rw [(process_token_none_iff sb cu st t).mpr hb] at hp
          exact absurd hp (by simp)
      rw [ih st2]
      simp [hnp]

/-- C10: at the tokenizer interface, rewrite_urls panics (modelled as none)
exactly when the token stream contains a parse-error token, because the
ParseError arm of process_token panics; every stream free of parse-error
tokens rewrites without error. -/
theorem c10_rewrite_panics_iff (base_url : UrlModel) (current_path : String)
    (ts : List HtmlToken) :
    (rewrite_urls_tokens base_url current_path ts = none
      ↔ ∃ t ∈ ts, isParseErrorToken t = true)
    ∧ rewrite_urls_tokens base_url current_path
        [HtmlToken.parseError "character reference outside of any character data"] = none := by
  constructor
  · unfold rewrite_urls_tokens
    rw [Option.map_eq_none']
    exact runSink_none_iff base_url (urlJoin base_url current_path) ts _
  · unfold rewrite_urls_tokens runSink process_token
    rfl

/-! ## Debounce theorems -/

theorem rebuildTimes_window (evs : List Nat) :
    ∀ last : Nat, List.Chain' (fun a b => a < b) (last :: evs) →
      ∀ r ∈ rebuildTimes evs (some last),
        ∃ e ∈ last :: evs, r = e + debounce_duration
          ∧ ∀ e2 ∈ last :: evs, ¬(e < e2 ∧ e2 < e + debounce_duration) := by
  induction evs with
  | nil =>
    intro last _ r hr
    simp only [rebuildTimes, List.mem_singleton] at hr
    subst hr
    refine ⟨last, List.mem_singleton.mpr rfl, rfl, ?_⟩
    intro e2 he2
    rw [List.mem_singleton] at he2
    subst he2
    exact fun h => lt_irrefl _ h.1
  | cons x xs ih =>
    intro last hchain r hr
    have hlx : last < x := (List.chain'_cons.mp hchain).1
    have hchain2 : List.Chain' (fun a b => a < b) (x :: xs) := (List.chain'_cons.mp hchain).2
    have hpair := (List.chain'_iff_pairwise.mp hchain2)
    unfold rebuildTimes at hr
    by_cases hc : x < last + debounce_duration
    · rw [if_pos hc] at hr
      obtain ⟨e, he, hre, hwin⟩ := ih x hchain2 r hr
      refine ⟨e, List.mem_cons_of_mem _ he, hre, ?_⟩
      intro e2 he2
      rcases List.mem_cons.mp he2 with he2 | he2
      · subst he2
        intro hcon
        have hxe : x ≤ e := by
          rcases List.mem_cons.mp he with he | he
          · exact he ▸ le_refl _
          · exact le_of_lt ((List.pairwise_cons.mp hpair).1 e he)
        exact absurd hcon.1 (not_lt.mpr (le_trans (le_of_lt hlx) hxe))
      · exact hwin e2 he2
    · rw [if_neg hc] at hr
      rcases List.mem_cons.mp hr with hr | hr
      · subst hr
        refine ⟨last, List.mem_cons_self _ _, rfl, ?_⟩
        intro e2 he2
        rintro ⟨h1, h2⟩
        rcases List.mem_cons.mp he2 with he2 | he2
        · subst he2; exact lt_irrefl _ h1
        · rcases List.mem_cons.mp he2 with he2 | he2
          · subst he2; exact hc h2
          · have hxlt : x < e2 := (List.pairwise_cons.mp hpair).1 e2 he2
            exact hc (lt_trans hxlt h2)
      · obtain ⟨e, he, hre, hwin⟩ := ih x hchain2 r hr
        refine ⟨e, List.mem_cons_of_mem _ he, hre, ?_⟩
        intro e2 he2
        rcases List.mem_cons.mp he2 with he2 | he2
        · subst he2
          intro hcon
          have hxe : x ≤ e := by
            rcases List.mem_cons.mp he with he | he
            · exact he ▸ le_refl _
            · exact le_of_lt ((List.pairwise_cons.mp hpair).1 e he)
          exact absurd hcon.1 (not_lt.mpr (le_trans (le_of_lt hlx) hxe))
        · exact hwin e2 he2

theorem rebuildTimes_gapped (evs : List Nat) :
    ∀ last : Nat,
      List.Chain' (fun a b => a < b ∧ b < a + debounce_duration) (last :: evs) →
      rebuildTimes evs (some last)
        = [(last :: evs).getLast (List.cons_ne_nil _ _) + debounce_duration] := by
  induction evs with
  | nil => intro last _; rfl
  | cons x xs ih =>
    intro last hchain
    have h1 := (List.chain'_cons.mp hchain).1
    have h2 := (List.chain'_cons.mp hchain).2
    unfold rebuildTimes
    rw [if_pos h1.2, ih x h2]
    rfl

/-- C7: over a quiescent-terminated trace of relevant event times, every
rebuild happens exactly 500 ms after some relevant event with no relevant
event inside that window (each event resets the timer), and when all
consecutive gaps are shorter than the window the trace produces exactly one
rebuild, 500 ms after its last event. -/
theorem c7_debounce (events : List Nat)
    (hsorted : List.Chain' (fun a b => a < b) events) :
    (∀ r ∈ rebuildTimes events none,
      ∃ e ∈ events, r = e + debounce_duration
        ∧ ∀ e2 ∈ events, ¬(e < e2 ∧ e2 < e + debounce_duration))
    ∧ (∀ hne : events ≠ [],
        List.Chain' (fun a b => a < b ∧ b < a + debounce_duration) events →
        rebuildTimes events none = [events.getLast hne + debounce_duration]) := by
  constructor
  · intro r hr
    cases events with
    | nil => simp [rebuildTimes] at hr
    | cons e es =>
      exact rebuildTimes_window es e hsorted r hr
  · intro hne hgap
    cases events with
    | nil => exact absurd rfl hne
    | cons e es =>
      exact rebuildTimes_gapped es e hgap

/-- C7 witness: four events with gaps 100, 350 and 450 ms produce exactly
one rebuild, 500 ms after the last event; and the window property holds for
that rebuild. -/
theorem c7_debounce_witness :
    rebuildTimes [0, 100, 450, 900] none = [1400]
    ∧ ∃ e ∈ [0, 100, 450, 900], (1400 : Nat) = e + debounce_duration
        ∧ ∀ e2 ∈ [0, 100, 450, 900], ¬(e < e2 ∧ e2 < e + debounce_duration) := by
  have h := c7_debounce [0, 100, 450, 900] (by simp [List.chain'_cons])
  have h1 := h.2 (by simp) (by simp [List.chain'_cons, debounce_duration])
  refine ⟨by simpa using h1, ?_⟩
  refine h.1 1400 ?_
  rw [h1]
  simp
  decide

/-! ## Snapshot swap theorems -/

/-- C8: along every linearised trace of coordinator actions and reader
snapshot reads, every observed snapshot is a completely built snapshot of a
single generation — pages_data, aliases, sitemap and both feeds always come
from the same build, because rebuilds mutate only the coordinator local
state until the one whole-record assignment publishes them. -/
theorem c8_snapshot_atomicity (g0 : Nat) (trace : List CoordEvent) :
    ∀ o ∈ coordObservations { shared := buildSnapshot g0, building := none } trace,
      (∃ g, o = buildSnapshot g) ∧ sameGeneration o := by
  suffices h : ∀ (tr : List CoordEvent) (st : CoordState),
      (∃ g, st.shared = buildSnapshot g) →
      ∀ o ∈ coordObservations st tr, ∃ g, o = buildSnapshot g by
    intro o ho
    obtain ⟨g, hg⟩ := h trace _ ⟨g0, rfl⟩ o ho
    subst hg
    exact ⟨⟨g, rfl⟩, rfl, rfl, rfl, rfl, rfl⟩
  intro tr
  induction tr with
  | nil => intro st _ o ho; simp [coordObservations] at ho
  | cons e es ih =>
    intro st hst o ho
    unfold coordObservations at ho
    rcases List.mem_append.mp ho with ho | ho
    · by_cases he : e = .read
      · rw [if_pos he] at ho
        rw [List.mem_singleton] at ho
        subst ho
        exact hst
      · rw [if_neg he] at ho
        simp at ho
    · refine ih (coordStep st e) ?_ o ho
      obtain ⟨g, hg⟩ := hst
      cases e with
      | startBuild g2 => exact ⟨g, hg⟩
      | read => exact ⟨g, hg⟩
      | buildStep =>
        cases hb : st.building with
        | none => exact ⟨g, by simp [coordStep, hb, hg]⟩
        | some pb => exact ⟨g, by simp [coordStep, hb, hg]⟩
      | publish =>
        cases hb : st.building with
        | none => exact ⟨g, by simp [coordStep, hb, hg]⟩
        | some pb =>
          by_cases hdone : snapshotFieldCount ≤ pb.fieldsDone
          · exact ⟨pb.gen, by simp [coordStep, hb, hdone]⟩
          · exact ⟨g, by simp [coordStep, hb, hdone, hg]⟩

/-- C8 witness: the theorem applied to a trace that reads, rebuilds
generation 1 across interleaved steps, and reads again. -/
theorem c8_snapshot_atomicity_witness :
    (∃ g, buildSnapshot 0 = buildSnapshot g) ∧ sameGeneration (buildSnapshot 0) :=
  c8_snapshot_atomicity 0 [.read, .startBuild 1, .buildStep, .read] (buildSnapshot 0)
    (by decide)
